import Mathlib

/-!
Verification of the sleepRemover utility (Python sources under
`src/sleepremover/`).  Strings are modelled as `List Char`; the
placeholder-rewrite passes of `process_sleep_messages`
(`core/languages.py`) are embedded as scanning functions that mirror
Python's `str.replace` (left-to-right, non-overlapping) and
`re.sub(r'%\d+\$s', '??', s)`.
-/

namespace SleepRemover

abbrev Str := List Char

/-- `leadsWith pat s` : `pat` is an initial segment of `s`
(the check Python's `in` / `str.replace` performs at each scan position). -/
def leadsWith : Str → Str → Bool
  | [], _ => true
  | _ :: _, [] => false
  | p :: ps, c :: cs => p == c && leadsWith ps cs

/-- `containsSub pat s` : `pat` occurs as a contiguous substring of `s`
(Python's `pat in s`). -/
def containsSub (pat : Str) : Str → Bool
  | [] => pat.isEmpty
  | c :: cs => leadsWith pat (c :: cs) || containsSub pat cs

/-- Embedding of `processed_msg.replace("%s/%s", "???")`:
left-to-right non-overlapping replacement of the 5-char pattern. -/
def replaceSlash : Str → Str
  | a :: b :: c :: d :: e :: rest =>
    if a = '%' ∧ b = 's' ∧ c = '/' ∧ d = '%' ∧ e = 's' then
      '?' :: '?' :: '?' :: replaceSlash rest
    else a :: replaceSlash (b :: c :: d :: e :: rest)
  | s => s

/-- Left-to-right non-overlapping replacement of the two-char pattern
`['%', x]` by `"??"` (Python's `s.replace("%" + x, "??")`). -/
def replacePair (x : Char) : Str → Str
  | [] => []
  | [c] => [c]
  | c :: d :: rest =>
    if c = '%' ∧ d = x then '?' :: '?' :: replacePair x rest
    else c :: replacePair x (d :: rest)

/-- Embedding of `processed_msg.replace("%s", "??")`. -/
def replaceS : Str → Str := replacePair 's'

/-- Embedding of `processed_msg.replace("%d", "??")`. -/
def replaceD : Str → Str := replacePair 'd'

/-- After a first digit has been seen: consume further digits, then require
`'$'` followed by `'s'`; return the remainder of the string on a match.
(The tail of matching `re` pattern `%\d+\$s`; since `'$'` is not a digit,
the regex engine's greedy `\d+` never backtracks, so this deterministic
scan is exact.) -/
def digitsTail : Str → Option Str
  | [] => none
  | c :: rest =>
    if c.isDigit then digitsTail rest
    else if c = '$' then
      match rest with
      | d :: r => if d = 's' then some r else none
      | [] => none
    else none

/-- Try to match `\d+\$s` (the part of `%\d+\$s` after the percent sign)
at the head of the string; return the remainder on success. -/
def matchIndexed : Str → Option Str
  | [] => none
  | c :: rest => if c.isDigit then digitsTail rest else none

/-- Fuel-indexed scanner for `re.sub(r'%\d+\$s', '??', s)`:
at each `'%'`, if the indexed pattern matches, emit `"??"` and continue
after the match, else emit the char and move on.  Fuel `≥ s.length`
makes the zero-fuel clause unreachable. -/
def subIndexedFuel : Nat → Str → Str
  | 0, s => s
  | _ + 1, [] => []
  | f + 1, c :: rest =>
    if c = '%' then
      match matchIndexed rest with
      | some r => '?' :: '?' :: subIndexedFuel f r
      | none => c :: subIndexedFuel f rest
    else c :: subIndexedFuel f rest

/-- Embedding of `re.sub(r'%\d+\$s', '??', s)`. -/
def subIndexed (s : Str) : Str := subIndexedFuel s.length s

/-- `hasIndexed s` : some position of `s` starts a match of `%\d+\$s`
(the indexed-placeholder pattern of the spec). -/
def hasIndexed : Str → Bool
  | [] => false
  | c :: rest => ((c == '%') && (matchIndexed rest).isSome) || hasIndexed rest

/-- The placeholder-rewrite step of `process_sleep_messages` on one
message: guarded `"%s/%s" → "???"`, then `%\d+\$s → "??"`, then
`"%s" → "??"`, then `"%d" → "??"`. -/
def processMsg (s : Str) : Str :=
  let s1 := if containsSub ("%s/%s".toList) s then replaceSlash s else s
  let s2 := subIndexed s1
  let s3 := replaceS s2
  replaceD s3

/-- The invariant claimed for processed messages: no `"%s"`, no `"%d"`,
and no indexed placeholder `%<digits>$s` occurs. -/
def noPlaceholder (t : Str) : Prop :=
  containsSub ['%', 's'] t = false ∧ containsSub ['%', 'd'] t = false ∧ hasIndexed t = false

/-- The `'‌[JEonly]'` marker string of the source: U+200C (zero-width
non-joiner) followed by `"[JEonly]"`. -/
def jeMarker : Str := '‌' :: ("[JEonly]".toList)

/-- `language_code.split(marker)[0]` : the part before the first
occurrence of the marker (the whole string when the marker is absent). -/
def takeBefore (pat : Str) : Str → Str
  | [] => []
  | c :: rest => if leadsWith pat (c :: rest) then [] else c :: takeBefore pat rest

/-- Python's `str.isdigit` (ASCII model): nonempty and all digits. -/
def pyIsDigit (s : Str) : Bool := !s.isEmpty && s.all Char.isDigit

/-- Python's `str.isalpha` (ASCII model): nonempty and all letters. -/
def pyIsAlpha (s : Str) : Bool := !s.isEmpty && s.all Char.isAlpha

/-- Python's `str.split(sep)` for a one-char separator. -/
def splitOn (sep : Char) : Str → List Str
  | [] => [[]]
  | c :: rest =>
    if c = sep then [] :: splitOn sep rest
    else
      match splitOn sep rest with
      | h :: t => (c :: h) :: t
      | [] => [[c]]

/-- `part.isalpha() and len(part) >= 2` — the per-part test of the third
acceptance branch of `get_language_codes`, which is also the token shape
the spec names. -/
def alphaTok (l : Str) : Bool := pyIsAlpha l && decide (2 ≤ l.length)

/-- The acceptance decision of `get_language_codes` for the text of the
language-code cell `cells[4]`: nonempty and not the en-dash placeholder,
then the three branches of the source — marker-stripped code with exactly
one underscore; bare alphabetic code of length ≥ 2; or two alphabetic
parts of length ≥ 2 joined by one underscore. -/
def extractCode (language_code : Str) : Option Str :=
  if language_code ≠ [] ∧ language_code ≠ ['–'] then
    if containsSub jeMarker language_code then
      if takeBefore jeMarker language_code ≠ [] ∧
          List.count '_' (takeBefore jeMarker language_code) = 1 ∧
          (splitOn '_' (takeBefore jeMarker language_code)).length = 2 then
        some (takeBefore jeMarker language_code)
      else none
    else if List.count '_' language_code = 0 ∧ pyIsAlpha language_code = true ∧
        2 ≤ language_code.length then
      some language_code
    else if List.count '_' language_code = 1 ∧ (splitOn '_' language_code).length = 2 ∧
        (splitOn '_' language_code).all alphaTok = true then
      some language_code
    else none
  else none

/-- One table row (the stripped texts of its `td` cells): rows with fewer
than 6 cells or whose first cell is not a digit string are skipped, then
the fifth cell's text is examined. -/
def rowCode (cells : List Str) : Option Str :=
  if cells.length < 6 then none
  else if pyIsDigit (cells.getD 0 []) = false then none
  else if 4 < cells.length then extractCode (cells.getD 4 [])
  else none

/-- `get_language_codes`, abstracted over the parsed wiki table: rows are
scanned in order and each accepted row appends one code to the list. -/
def get_language_codes (rows : List (List Str)) : List Str :=
  rows.filterMap rowCode

/-- The claim's two accepted shapes: purely alphabetic of length ≥ 2, or
two such tokens joined by one underscore. -/
def shapeOk (l : Str) : Bool :=
  alphaTok l ||
    (match splitOn '_' l with
     | [a, b] => alphaTok a && alphaTok b
     | _ => false)

abbrev Doc := List (Str × Str)

abbrev FS := List (Str × Doc)

/-- Overwriting write of one file into a directory model. -/
def fsSet (fs : FS) (k : Str) (v : Doc) : FS :=
  (k, v) :: fs.filter (fun kv => kv.1 != k)

/-- A GitHub directory-listing entry as `download_file` consumes it. -/
structure FileInfo where
  name : Str
  download_url : Str

/-- Outcome of `session.get`: a raised exception, or a response carrying
an HTTP status and a body. -/
inductive HttpResp where
  | exn : HttpResp
  | resp : Nat → Str → HttpResp

/-- The ambient effects `download_file` depends on: the network, the
result of `json.loads` on a body, and whether the file write succeeds. -/
structure Env where
  http : Str → HttpResp
  parseJson : Str → Option Doc
  writeOk : Str → Bool

/-- `response.raise_for_status()` followed by reading `response.text`:
`none` when the request raised or the status is a 4xx/5xx error. -/
def raise_for_status : HttpResp → Option Str
  | HttpResp.exn => none
  | HttpResp.resp status body => if 400 ≤ status then none else some body

/-- `download_file`: GET, raise-for-status, parse the body as JSON, then
(and only then) open and write `cache_dir/name`; every failure on the way
is caught and turned into `false`, leaving the filesystem as it was. -/
def download_file (env : Env) (fs : FS) (f : FileInfo) : Bool × FS :=
  match raise_for_status (env.http f.download_url) with
  | none => (false, fs)
  | some text =>
    match env.parseJson text with
    | none => (false, fs)
    | some data =>
      if env.writeOk f.name then (true, fsSet fs f.name data)
      else (false, fs)

/-- `download_all_files`: run every item to completion (the concurrent
gather is abstracted as a sequential fold — items are independent) and
count the `true` results. -/
def download_all_files (env : Env) (fs : FS) (json_files : List FileInfo) : Nat × FS :=
  match json_files with
  | [] => (0, fs)
  | f :: rest =>
    let r := download_file env fs f
    let rr := download_all_files env r.2 rest
    (rr.1 + (if r.1 then 1 else 0), rr.2)

def sleepKey : Str := ("sleep.players_sleeping".toList)

def defaultMsg : Str := ("%s/%s players sleeping".toList)

def jsonExt : Str := (".json".toList)

def fallbackName : Str := ("en_gb.json".toList)

def cacheErrorMsg : Str :=
  ("Fallback file en_gb.json not found in cache. Run get_language_files() first.".toList)

/-- `dict.get(key, default)` on a loaded translation document. -/
def dictGet (d : Doc) (k : Str) (dflt : Str) : Str :=
  match List.lookup k d with
  | some v => v
  | none => dflt

/-- Per-code source-message resolution: the cached language file's
sleep-message entry when `cache/{code}.json` exists (falling back to the
fallback message when the key is absent), else the fallback message. -/
def resolveMsg (cache : FS) (fallback_msg : Str) (lang_code : Str) : Str :=
  match List.lookup (lang_code ++ jsonExt) cache with
  | some lang_data => dictGet lang_data sleepKey fallback_msg
  | none => fallback_msg

/-- The writing loop of `process_sleep_messages`: for each code in order,
write `{code}.json ↦ {sleepKey: processMsg(resolved message)}` into the
output directory. -/
def write_phase (cache : FS) (fallback_msg : Str) : List Str → FS → FS
  | [], out => out
  | c :: cs, out =>
    write_phase cache fallback_msg cs
      (fsSet out (c ++ jsonExt) [(sleepKey, processMsg (resolveMsg cache fallback_msg c))])

/-- The post-pass flag test of the source, verbatim:
`"%" in sleep_msg and ("s" in sleep_msg or "d" in sleep_msg)`. -/
def flagged (msg : Str) : Bool :=
  msg.contains '%' && (msg.contains 's' || msg.contains 'd')

/-- The verification post-pass: re-read each just-written output file and
collect `(code, message)` for every flagged message; it only reads. -/
def check_unmodified (outFs : FS) (codes : List Str) : List (Str × Str) :=
  codes.filterMap (fun c =>
    match List.lookup (c ++ jsonExt) outFs with
    | none => none
    | some data =>
      let sleep_msg := dictGet data sleepKey []
      if flagged sleep_msg then some (c, sleep_msg) else none)

/-- `process_sleep_messages`, abstracted over the scraped table and the
cache directory: check the fallback file, write all outputs, then run the
read-only verification pass; a missing fallback aborts with the error
message before any output is produced. -/
def process_sleep_messages (rows : List (List Str)) (cache : FS) :
    Except Str (FS × List (Str × Str)) :=
  let language_codes := get_language_codes rows
  match List.lookup fallbackName cache with
  | none => Except.error cacheErrorMsg
  | some fallback_data =>
    let fallback_sleep_msg := dictGet fallback_data sleepKey defaultMsg
    let outFs := write_phase cache fallback_sleep_msg language_codes []
    Except.ok (outFs, check_unmodified outFs language_codes)

/-- The ordered flag criterion in the claim's wording, for comparison
with `flagged`: some `'%'` is followed, at a later position of the
string, by an `'s'` or a `'d'`. -/
def percentThenSD : Str → Bool
  | [] => false
  | c :: rest => ((c == '%') && (rest.contains 's' || rest.contains 'd')) || percentThenSD rest

theorem digitsTail_length : ∀ {l r : Str}, digitsTail l = some r → r.length < l.length := by
  intro l
  induction l with
  | nil => intro r h; simp [digitsTail] at h
  | cons c rest ih =>
    intro r h
    simp only [digitsTail] at h
    split at h
    · exact Nat.lt_succ_of_lt (ih h)
    · split at h
      · cases rest with
        | nil => simp at h
        | cons d r' =>
          simp only at h
          split at h
          · cases h; simp; omega
          · simp at h
      · simp at h

theorem matchIndexed_length {l r : Str} (h : matchIndexed l = some r) : r.length < l.length := by
  cases l with
  | nil => simp [matchIndexed] at h
  | cons c rest =>
    simp only [matchIndexed] at h
    split at h
    · exact Nat.lt_succ_of_lt (digitsTail_length h)
    · simp at h

theorem subIndexedFuel_congr :
    ∀ (f g : Nat) (s : Str), s.length ≤ f → s.length ≤ g →
      subIndexedFuel f s = subIndexedFuel g s := by
  intro f
  induction f with
  | zero =>
    intro g s hf _
    cases s with
    | nil => cases g <;> rfl
    | cons c rest => simp at hf
  | succ f ih =>
    intro g s hf hg
    cases s with
    | nil => cases g <;> rfl
    | cons c rest =>
      cases g with
      | zero => simp at hg
      | succ g =>
        simp only [List.length_cons, Nat.add_le_add_iff_right] at hf hg
        simp only [subIndexedFuel]
        by_cases hc : c = '%'
        · simp only [if_pos hc]
          cases hmi : matchIndexed rest with
          | some r =>
            have hr := matchIndexed_length hmi
            simp only [hmi]
            rw [ih g r (by omega) (by omega)]
          | none =>
            simp only [hmi]
            rw [ih g rest hf hg]
        · simp only [if_neg hc]
          rw [ih g rest hf hg]

theorem subIndexed_nil : subIndexed [] = [] := rfl

theorem subIndexed_cons_of_ne {c : Char} (h : c ≠ '%') (rest : Str) :
    subIndexed (c :: rest) = c :: subIndexed rest := by
  unfold subIndexed
  simp only [List.length_cons, subIndexedFuel, if_neg h]

theorem subIndexed_match {rest r : Str} (h : matchIndexed rest = some r) :
    subIndexed ('%' :: rest) = '?' :: '?' :: subIndexed r := by
  unfold subIndexed
  simp only [List.length_cons, subIndexedFuel, if_pos rfl, h, if_true]
  have := matchIndexed_length h
  rw [subIndexedFuel_congr rest.length r.length r (by omega) (le_refl _)]

theorem subIndexed_nomatch {rest : Str} (h : matchIndexed rest = none) :
    subIndexed ('%' :: rest) = '%' :: subIndexed rest := by
  unfold subIndexed
  simp only [List.length_cons, subIndexedFuel, if_pos rfl, h, if_true]

theorem subIndexed_head {l : Str} {x : Char} (h : (subIndexed l).head? = some x) :
    x = '?' ∨ l.head? = some x := by
  cases l with
  | nil => simp [subIndexed_nil] at h
  | cons c rest =>
    by_cases hc : c = '%'
    · subst hc
      cases hmi : matchIndexed rest with
      | some r =>
        rw [subIndexed_match hmi] at h
        simp only [List.head?_cons, Option.some.injEq] at h
        exact Or.inl h.symm
      | none =>
        rw [subIndexed_nomatch hmi] at h
        simp only [List.head?_cons, Option.some.injEq] at h
        exact Or.inr (by rw [List.head?_cons, h])
    · rw [subIndexed_cons_of_ne hc] at h
      simp only [List.head?_cons, Option.some.injEq] at h
      exact Or.inr (by rw [List.head?_cons, h])

theorem digitsTail_subIndexed :
    ∀ {l : Str}, (digitsTail (subIndexed l)).isSome → (digitsTail l).isSome := by
  intro l
  induction l with
  | nil => simp [subIndexed_nil]
  | cons c rest ih =>
    intro h
    by_cases hc : c = '%'
    · subst hc
      cases hmi : matchIndexed rest with
      | some r => rw [subIndexed_match hmi] at h; simp [digitsTail] at h
      | none => rw [subIndexed_nomatch hmi] at h; simp [digitsTail] at h
    · rw [subIndexed_cons_of_ne hc] at h
      simp only [digitsTail] at h ⊢
      by_cases hd : c.isDigit
      · simp only [if_pos hd] at h ⊢
        exact ih h
      · simp only [if_neg hd] at h ⊢
        by_cases hdl : c = '$'
        · simp only [if_pos hdl] at h ⊢
          cases hsr : subIndexed rest with
          | nil => rw [hsr] at h; simp at h
          | cons d r =>
            rw [hsr] at h
            simp only at h
            split at h
            next hds =>
              subst hds
              have hh : (subIndexed rest).head? = some 's' := by rw [hsr]; rfl
              rcases subIndexed_head hh with h1 | h1
              · exact absurd h1 (by decide)
              · cases rest with
                | nil => simp at h1
                | cons e r2 =>
                  simp only [List.head?_cons, Option.some.injEq] at h1
                  subst h1
                  simp
            next => simp at h
        · simp only [if_neg hdl] at h
          simp at h

theorem matchIndexed_subIndexed :
    ∀ {l : Str}, (matchIndexed (subIndexed l)).isSome → (matchIndexed l).isSome := by
  intro l h
  cases l with
  | nil => simp [subIndexed_nil, matchIndexed] at h
  | cons c rest =>
    by_cases hc : c = '%'
    · subst hc
      cases hmi : matchIndexed rest with
      | some r => rw [subIndexed_match hmi] at h; simp [matchIndexed] at h
      | none => rw [subIndexed_nomatch hmi] at h; simp [matchIndexed] at h
    · rw [subIndexed_cons_of_ne hc] at h
      simp only [matchIndexed] at h ⊢
      by_cases hd : c.isDigit
      · simp only [if_pos hd] at h ⊢
        exact digitsTail_subIndexed h
      · simp only [if_neg hd] at h
        simp at h

theorem hasIndexed_subIndexed (l : Str) : hasIndexed (subIndexed l) = false := by
  have H : ∀ n (l : Str), l.length ≤ n → hasIndexed (subIndexed l) = false := by
    intro n
    induction n with
    | zero =>
      intro l hl
      cases l with
      | nil => rfl
      | cons c rest => simp at hl
    | succ n ih =>
      intro l hl
      cases l with
      | nil => rfl
      | cons c rest =>
        simp only [List.length_cons, Nat.add_le_add_iff_right] at hl
        by_cases hc : c = '%'
        · subst hc
          cases hmi : matchIndexed rest with
          | some r =>
            rw [subIndexed_match hmi]
            have hr := matchIndexed_length hmi
            simp only [hasIndexed]
            rw [ih r (by omega)]
            simp [show ('?' == '%') = false by decide]
          | none =>
            rw [subIndexed_nomatch hmi]
            simp only [hasIndexed]
            rw [ih rest hl]
            cases hms : matchIndexed (subIndexed rest) with
            | some r =>
              have := matchIndexed_subIndexed (l := rest) (by rw [hms]; rfl)
              rw [hmi] at this
              simp at this
            | none => simp
        · rw [subIndexed_cons_of_ne hc]
          simp only [hasIndexed]
          rw [ih rest hl]
          simp [hc]
  exact H l.length l (le_refl _)

theorem leadsWith_single {a : Char} {t : Str} (h : leadsWith [a] t = true) :
    t.head? = some a := by
  cases t with
  | nil => simp [leadsWith] at h
  | cons c cs =>
    simp only [leadsWith, Bool.and_eq_true, beq_iff_eq] at h
    simp [h.1]

theorem leadsWith_two {a b : Char} {p t : Str} (h : leadsWith (a :: b :: p) t = true) :
    leadsWith [a, b] t = true := by
  cases t with
  | nil => simp [leadsWith] at h
  | cons c cs =>
    cases cs with
    | nil => simp [leadsWith] at h
    | cons d ds =>
      simp only [leadsWith, Bool.and_eq_true] at h ⊢
      exact ⟨h.1, h.2.1, trivial⟩

theorem containsSub_cons {pat : Str} {c : Char} {rest : Str}
    (h : containsSub pat rest = true) : containsSub pat (c :: rest) = true := by
  simp [containsSub, h]

theorem containsSub_tail_false {pat : Str} {c : Char} {rest : Str}
    (h : containsSub pat (c :: rest) = false) : containsSub pat rest = false := by
  cases hx : containsSub pat rest with
  | false => rfl
  | true => rw [containsSub_cons hx] at h; exact h

theorem hasIndexed_cons {c : Char} {rest : Str} (h : hasIndexed rest = true) :
    hasIndexed (c :: rest) = true := by
  simp [hasIndexed, h]

theorem slashPat_eq : ("%s/%s".toList) = ['%', 's', '/', '%', 's'] := rfl

theorem replacePair_head {x : Char} :
    ∀ {l : Str} {y : Char}, (replacePair x l).head? = some y → y = '?' ∨ l.head? = some y := by
  intro l y h
  match l with
  | [] => simp [replacePair] at h
  | [c] => exact Or.inr h
  | c :: d :: rest =>
    simp only [replacePair] at h
    split at h
    · simp only [List.head?_cons, Option.some.injEq] at h
      exact Or.inl h.symm
    · simp only [List.head?_cons, Option.some.injEq] at h
      exact Or.inr (by rw [List.head?_cons, h])

theorem containsSub_pair_replacePair_self {x : Char} (hx : x ≠ '?') (l : Str) :
    containsSub ['%', x] (replacePair x l) = false := by
  induction l using replacePair.induct x with
  | case1 => rfl
  | case2 c => simp [replacePair, containsSub, leadsWith]
  | case3 c d rest h ih =>
    simp only [replacePair, if_pos h]
    simp [containsSub, leadsWith, show ('%' == '?') = false by decide, ih]
  | case4 c d rest h ih =>
    simp only [replacePair, if_neg h]
    simp only [containsSub, Bool.or_eq_false_iff]
    refine ⟨?_, ih⟩
    by_cases hc : c = '%'
    · subst hc
      simp only [leadsWith, Bool.and_eq_false_iff]
      right
      cases hlw : leadsWith [x] (replacePair x (d :: rest)) with
      | false => rfl
      | true =>
        exfalso
        have hh := leadsWith_single hlw
        rcases replacePair_head hh with h1 | h1
        · exact hx h1
        · simp only [List.head?_cons, Option.some.injEq] at h1
          exact h ⟨rfl, h1⟩
    · simp [leadsWith, beq_eq_false_iff_ne, Ne.symm hc]

theorem containsSub_pair_replacePair {x y : Char} (hy : y ≠ '?') :
    ∀ l : Str, containsSub ['%', y] (replacePair x l) = true →
      containsSub ['%', y] l = true := by
  intro l
  induction l using replacePair.induct x with
  | case1 => intro h; simpa [replacePair] using h
  | case2 c => intro h; simpa [replacePair] using h
  | case3 c d rest h ih =>
    intro hc
    simp only [replacePair, if_pos h] at hc
    have h2 : containsSub ['%', y] (replacePair x rest) = true := by
      simpa [containsSub, leadsWith, show ('%' == '?') = false by decide] using hc
    obtain ⟨hc1, hd1⟩ := h
    subst hc1; subst hd1
    exact containsSub_cons (containsSub_cons (ih h2))
  | case4 c d rest h ih =>
    intro hc
    simp only [replacePair, if_neg h] at hc
    simp only [containsSub, Bool.or_eq_true] at hc
    rcases hc with hc | hc
    · simp only [leadsWith, Bool.and_eq_true, beq_iff_eq] at hc
      obtain ⟨hc1, hlw⟩ := hc
      have hh := leadsWith_single hlw
      rcases replacePair_head hh with h1 | h1
      · exact absurd h1 hy
      · simp only [List.head?_cons, Option.some.injEq] at h1
        subst h1
        subst hc1
        simp [containsSub, leadsWith]
    · exact containsSub_cons (ih hc)

theorem digitsTail_replacePair {x : Char} :
    ∀ l : Str, (digitsTail (replacePair x l)).isSome → (digitsTail l).isSome := by
  intro l
  induction l using replacePair.induct x with
  | case1 => intro h; simpa [replacePair] using h
  | case2 c => intro h; simpa [replacePair] using h
  | case3 c d rest h ih =>
    intro hds
    simp only [replacePair, if_pos h] at hds
    simp [digitsTail, show ('?'.isDigit) = false by decide,
      show ('?' : Char) ≠ '$' by decide] at hds
  | case4 c d rest h ih =>
    intro hds
    simp only [replacePair, if_neg h] at hds
    simp only [digitsTail] at hds ⊢
    by_cases hd : c.isDigit
    · simp only [if_pos hd] at hds ⊢
      exact ih hds
    · simp only [if_neg hd] at hds ⊢
      by_cases hdl : c = '$'
      · simp only [if_pos hdl] at hds ⊢
        cases hsr : replacePair x (d :: rest) with
        | nil => rw [hsr] at hds; simp at hds
        | cons e r =>
          rw [hsr] at hds
          simp only at hds
          split at hds
          next hes =>
            subst hes
            have hh : (replacePair x (d :: rest)).head? = some 's' := by rw [hsr]; rfl
            rcases replacePair_head hh with h1 | h1
            · exact absurd h1 (by decide)
            · simp only [List.head?_cons, Option.some.injEq] at h1
              subst h1
              simp
          next => simp at hds
      · simp only [if_neg hdl] at hds
        simp at hds

theorem matchIndexed_replacePair {x : Char} :
    ∀ {l : Str}, (matchIndexed (replacePair x l)).isSome → (matchIndexed l).isSome := by
  intro l h
  match l with
  | [] => simpa [replacePair, matchIndexed] using h
  | [c] => simpa [replacePair] using h
  | c :: d :: r2 =>
    by_cases hcd : c = '%' ∧ d = x
    · rw [show replacePair x (c :: d :: r2) = '?' :: '?' :: replacePair x r2 from by
        simp [replacePair, if_pos hcd]] at h
      simp [matchIndexed, show ('?'.isDigit) = false by decide] at h
    · rw [show replacePair x (c :: d :: r2) = c :: replacePair x (d :: r2) from by
        simp [replacePair, if_neg hcd]] at h
      simp only [matchIndexed] at h ⊢
      by_cases hd : c.isDigit
      · simp only [if_pos hd] at h ⊢
        exact digitsTail_replacePair _ h
      · simp only [if_neg hd] at h
        simp at h

theorem hasIndexed_replacePair {x : Char} :
    ∀ l : Str, hasIndexed (replacePair x l) = true → hasIndexed l = true := by
  intro l
  induction l using replacePair.induct x with
  | case1 => intro h; simpa [replacePair] using h
  | case2 c => intro h; simpa [replacePair] using h
  | case3 c d rest h ih =>
    intro hh
    simp only [replacePair, if_pos h] at hh
    have h2 : hasIndexed (replacePair x rest) = true := by
      simpa [hasIndexed, show ('?' == '%') = false by decide] using hh
    simp [hasIndexed, ih h2]
  | case4 c d rest h ih =>
    intro hh
    simp only [replacePair, if_neg h] at hh
    simp only [hasIndexed, Bool.or_eq_true, Bool.and_eq_true] at hh
    rcases hh with ⟨hc, hm⟩ | hh
    · show (((c == '%') && (matchIndexed (d :: rest)).isSome) || hasIndexed (d :: rest)) = true
      simp only [Bool.or_eq_true, Bool.and_eq_true]
      exact Or.inl ⟨hc, matchIndexed_replacePair hm⟩
    · exact hasIndexed_cons (ih hh)

theorem replacePair_id {x : Char} :
    ∀ l : Str, containsSub ['%', x] l = false → replacePair x l = l := by
  intro l
  induction l using replacePair.induct x with
  | case1 => intro _; rfl
  | case2 c => intro _; rfl
  | case3 c d rest h ih =>
    intro hcs
    exfalso
    obtain ⟨h1, h2⟩ := h
    subst h1; subst h2
    simp [containsSub, leadsWith] at hcs
  | case4 c d rest h ih =>
    intro hcs
    simp only [replacePair, if_neg h]
    rw [ih (containsSub_tail_false hcs)]

theorem subIndexed_id : ∀ l : Str, hasIndexed l = false → subIndexed l = l := by
  intro l
  induction l with
  | nil => intro _; rfl
  | cons c rest ih =>
    intro h
    simp only [hasIndexed, Bool.or_eq_false_iff] at h
    obtain ⟨h1, h2⟩ := h
    by_cases hc : c = '%'
    · subst hc
      cases hmi : matchIndexed rest with
      | some r => rw [hmi] at h1; simp at h1
      | none => rw [subIndexed_nomatch hmi, ih h2]
    · rw [subIndexed_cons_of_ne hc, ih h2]

theorem replaceSlash_short {s : Str}
    (h : ∀ (a b c d e : Char) (rest : Str), s = a :: b :: c :: d :: e :: rest → False) :
    replaceSlash s = s := by
  match s with
  | [] => rfl
  | [a] => rfl
  | [a, b] => rfl
  | [a, b, c] => rfl
  | [a, b, c, d] => rfl
  | a :: b :: c :: d :: e :: rest => exact absurd rfl (fun hh => h a b c d e rest hh)

theorem replaceSlash_id :
    ∀ l : Str, containsSub ("%s/%s".toList) l = false → replaceSlash l = l := by
  intro l
  induction l using replaceSlash.induct with
  | case1 a b c d e rest h ih =>
    intro hcs
    exfalso
    obtain ⟨h1, h2, h3, h4, h5⟩ := h
    subst h1; subst h2; subst h3; subst h4; subst h5
    simp [slashPat_eq, containsSub, leadsWith] at hcs
  | case2 a b c d e rest h ih =>
    intro hcs
    simp only [replaceSlash, if_neg h]
    rw [ih (containsSub_tail_false hcs)]
  | case3 s h =>
    intro _
    exact replaceSlash_short h

theorem containsSub_slash_pair :
    ∀ l : Str, containsSub ("%s/%s".toList) l = true → containsSub ['%', 's'] l = true := by
  intro l
  induction l with
  | nil => intro h; simpa [containsSub] using h
  | cons c rest ih =>
    intro h
    simp only [containsSub, Bool.or_eq_true] at h ⊢
    rcases h with h | h
    · rw [slashPat_eq] at h
      exact Or.inl (leadsWith_two h)
    · exact Or.inr (ih h)

theorem processMsg_noPlaceholder (s : Str) : noPlaceholder (processMsg s) := by
  unfold processMsg noPlaceholder
  simp only [replaceS, replaceD]
  set s1 := if containsSub ("%s/%s".toList) s = true then replaceSlash s else s with hs1
  refine ⟨?_, ?_, ?_⟩
  · have h0 : containsSub ['%', 's'] (replacePair 's' (subIndexed s1)) = false :=
      containsSub_pair_replacePair_self (by decide) _
    cases hX : containsSub ['%', 's'] (replacePair 'd' (replacePair 's' (subIndexed s1))) with
    | false => rfl
    | true =>
      have := containsSub_pair_replacePair (by decide) _ hX
      rw [h0] at this
      exact this.symm
  · exact containsSub_pair_replacePair_self (by decide) _
  · have h0 : hasIndexed (subIndexed s1) = false := hasIndexed_subIndexed s1
    cases hX : hasIndexed (replacePair 'd' (replacePair 's' (subIndexed s1))) with
    | false => rfl
    | true =>
      have := hasIndexed_replacePair _ (hasIndexed_replacePair _ hX)
      rw [h0] at this
      exact this.symm

example : processMsg ("%s/%s players sleeping".toList) = ("??? players sleeping".toList) := by
  decide

example : processMsg ("%1$s/%2$s players are sleeping".toList)
    = ("??/?? players are sleeping".toList) := by decide

example : processMsg ("%s of %d and %12$s".toList) = ("?? of ?? and ??".toList) := by decide

example : processMsg ("no placeholders".toList) = ("no placeholders".toList) := by decide

/-- Claim C1: the placeholder-rewrite step is the strict four-pass composition —
replace every `"%s/%s"` by `"???"`, then every `%<digits>$s` by `"??"`,
then every remaining `"%s"` by `"??"`, then every `"%d"` by `"??"` — and in
particular `"%s/%s players sleeping"` maps to `"??? players sleeping"` and
`"%1$s/%2$s players are sleeping"` maps to `"??/?? players are sleeping"`. -/
theorem c1_rewrite_passes_in_order :
    (∀ s : Str, processMsg s = replaceD (replaceS (subIndexed (replaceSlash s)))) ∧
    processMsg ("%s/%s players sleeping".toList) = ("??? players sleeping".toList) ∧
    processMsg ("%1$s/%2$s players are sleeping".toList)
      = ("??/?? players are sleeping".toList) := by
  refine ⟨?_, by decide, by decide⟩
  intro s
  unfold processMsg
  cases hg : containsSub ("%s/%s".toList) s with
  | true => simp [hg]
  | false => simp [hg, replaceSlash_id s hg]

/-- Claim C3: the placeholder-rewrite step is idempotent — applying it twice
yields the same result as applying it once, for every input message. -/
theorem c3_processMsg_idempotent :
    ∀ s : Str, processMsg (processMsg s) = processMsg s := by
  intro s
  obtain ⟨h1, h2, h3⟩ := processMsg_noPlaceholder s
  set t := processMsg s with ht
  show processMsg t = t
  have hguard : containsSub ("%s/%s".toList) t = false := by
    cases hgx : containsSub ("%s/%s".toList) t with
    | false => rfl
    | true =>
      have := containsSub_slash_pair t hgx
      rw [h1] at this
      exact this.symm
  unfold processMsg
  rw [hguard]
  simp only [Bool.false_eq_true, if_false, replaceS, replaceD]
  rw [subIndexed_id t h3, replacePair_id t h1, replacePair_id t h2]

theorem lookup_cons_self {k : Str} {v : Doc} {rest : FS} :
    List.lookup k ((k, v) :: rest) = some v := by
  simp [List.lookup]

theorem lookup_cons_ne {k k1 : Str} (h : k ≠ k1) (v : Doc) (rest : FS) :
    List.lookup k ((k1, v) :: rest) = List.lookup k rest := by
  simp [List.lookup, beq_eq_false_iff_ne.mpr h]

theorem lookup_filter_ne (fs : FS) (k k' : Str) (h : k' ≠ k) :
    List.lookup k' (fs.filter (fun kv => kv.1 != k)) = List.lookup k' fs := by
  induction fs with
  | nil => rfl
  | cons kv rest ih =>
    obtain ⟨k1, v1⟩ := kv
    rw [List.filter_cons]
    by_cases hk : k1 = k
    · subst hk
      simp only [bne_self_eq_false]
      rw [if_neg Bool.false_ne_true, ih, lookup_cons_ne h v1 rest]
    · have hcond : ((k1, v1).1 != k) = true := bne_iff_ne.mpr hk
      rw [if_pos hcond]
      by_cases hkk : k' = k1
      · subst hkk
        rw [lookup_cons_self, lookup_cons_self]
      · rw [lookup_cons_ne hkk v1 _, lookup_cons_ne hkk v1 rest, ih]

theorem fsSet_lookup (fs : FS) (k : Str) (v : Doc) (k' : Str) :
    List.lookup k' (fsSet fs k v) = if k' = k then some v else List.lookup k' fs := by
  unfold fsSet
  by_cases h : k' = k
  · subst h
    rw [if_pos rfl, lookup_cons_self]
  · rw [if_neg h, lookup_cons_ne h v _, lookup_filter_ne fs k k' h]

theorem write_phase_lookup (cache : FS) (fb : Str) :
    ∀ (codes : List Str) (out : FS) (k : Str) (d : Doc),
      List.lookup k (write_phase cache fb codes out) = some d →
      (∃ c, c ∈ codes ∧ k = c ++ jsonExt ∧
        d = [(sleepKey, processMsg (resolveMsg cache fb c))]) ∨ List.lookup k out = some d := by
  intro codes
  induction codes with
  | nil => intro out k d h; exact Or.inr h
  | cons c cs ih =>
    intro out k d h
    simp only [write_phase] at h
    rcases ih _ k d h with ⟨c', hc', hk, hd⟩ | hout
    · exact Or.inl ⟨c', List.mem_cons_of_mem _ hc', hk, hd⟩
    · rw [fsSet_lookup] at hout
      split at hout
      next hk =>
        simp only [Option.some.injEq] at hout
        exact Or.inl ⟨c, List.mem_cons_self _ _, hk, hout.symm⟩
      next => exact Or.inr hout

/-- Claim C2: for every input message the rewritten string contains no
`"%s"`, no `"%d"` and no `%<digits>$s`; hence every document written by
the write phase has only messages satisfying that invariant. -/
theorem c2_no_unrewritten_placeholder :
    (∀ s : Str, noPlaceholder (processMsg s)) ∧
    (∀ (cache : FS) (fb : Str) (codes : List Str) (k : Str) (d : Doc),
        List.lookup k (write_phase cache fb codes []) = some d →
        ∀ kv ∈ d, noPlaceholder kv.2) := by
  refine ⟨processMsg_noPlaceholder, ?_⟩
  intro cache fb codes k d h kv hkv
  rcases write_phase_lookup cache fb codes [] k d h with ⟨c, -, -, hd⟩ | hout
  · subst hd
    simp only [List.mem_singleton] at hkv
    subst hkv
    exact processMsg_noPlaceholder _
  · simp [List.lookup] at hout

/-- Witness for C2 at a concrete write: the single output document of a
one-code run satisfies the invariant. -/
theorem c2_witness :
    List.lookup ("en.json".toList) (write_phase [] [] [("en".toList)] [])
      = some [(sleepKey, [])] ∧
    ∀ kv ∈ [(sleepKey, ([] : Str))], noPlaceholder kv.2 :=
  ⟨by decide, c2_no_unrewritten_placeholder.2 [] [] [("en".toList)] ("en.json".toList)
    [(sleepKey, [])] (by decide)⟩

/-- Claim C4 fails on the code: the raw cell `"1_2‌[JEonly]"` is accepted
by the marker branch as `"1_2"`, which matches neither of the two claimed
shapes (its parts are not alphabetic). -/
theorem c4_counterexample :
    extractCode ('1' :: '_' :: '2' :: jeMarker) = some ['1', '_', '2'] ∧
    shapeOk ['1', '_', '2'] = false := by decide

/-- Claim C4 (amended): an identifier accepted without the Java-Edition
marker matches one of the two claimed shapes; an identifier accepted after
stripping the marker is only guaranteed nonempty with exactly one
underscore — its parts are not checked for being alphabetic. -/
theorem c4_accepted_shapes (cell code : Str) (h : extractCode cell = some code) :
    (containsSub jeMarker cell = false → shapeOk code = true) ∧
    (containsSub jeMarker cell = true → code ≠ [] ∧ List.count '_' code = 1) := by
  unfold extractCode at h
  split at h
  case isFalse => simp at h
  case isTrue h0 =>
    split at h
    case isTrue hm =>
      split at h
      case isTrue hje =>
        simp only [Option.some.injEq] at h
        subst h
        refine ⟨fun hnm => ?_, fun _ => ⟨hje.1, hje.2.1⟩⟩
        rw [hm] at hnm
        simp at hnm
      case isFalse => simp at h
    case isFalse hm =>
      split at h
      case isTrue h2 =>
        simp only [Option.some.injEq] at h
        subst h
        refine ⟨fun _ => ?_, fun hmm => absurd hmm hm⟩
        simp [shapeOk, alphaTok, h2.2.1, h2.2.2]
      case isFalse h2 =>
        split at h
        case isTrue h3 =>
          simp only [Option.some.injEq] at h
          subst h
          refine ⟨fun _ => ?_, fun hmm => absurd hmm hm⟩
          obtain ⟨-, hlen, hall⟩ := h3
          unfold shapeOk
          match hsp : splitOn '_' cell with
          | [] => rw [hsp] at hlen; simp at hlen
          | [a] => rw [hsp] at hlen; simp at hlen
          | [a, b] =>
            rw [hsp] at hall
            simp only [List.all_cons, List.all_nil, Bool.and_eq_true, Bool.and_true] at hall
            simp [hsp, hall.1, hall.2]
          | a :: b :: c2 :: t => rw [hsp] at hlen; simp at hlen
        case isFalse => simp at h

/-- Witness for C4 (amended) at the accepted identifier `"de_at"`. -/
theorem c4_witness :
    extractCode ("de_at".toList) = some ("de_at".toList) ∧
    ((containsSub jeMarker ("de_at".toList) = false → shapeOk ("de_at".toList) = true) ∧
     (containsSub jeMarker ("de_at".toList) = true →
        ("de_at".toList) ≠ [] ∧ List.count '_' ("de_at".toList) = 1)) :=
  ⟨by decide, c4_accepted_shapes ("de_at".toList) ("de_at".toList) (by decide)⟩

/-- Claim C5 fails on the code: two table rows carrying the same valid
code produce a duplicated entry — the extractor does not deduplicate. -/
theorem c5_counterexample :
    get_language_codes
        [[("1".toList), [], [], [], ("en".toList), []],
         [("1".toList), [], [], [], ("en".toList), []]]
      = [("en".toList), ("en".toList)] ∧
    ¬ (get_language_codes
        [[("1".toList), [], [], [], ("en".toList), []],
         [("1".toList), [], [], [], ("en".toList), []]]).Nodup := by
  decide

/-- Claim C5 (amended): the extractor preserves insertion order (it
distributes over appending row lists) and each accepted row contributes
exactly one entry, so the result is duplicate-free only when the accepted
codes of distinct rows are pairwise distinct. -/
theorem c5_order_and_multiplicity :
    (∀ rows1 rows2 : List (List Str),
        get_language_codes (rows1 ++ rows2)
          = get_language_codes rows1 ++ get_language_codes rows2) ∧
    (∀ (rows : List (List Str)) (c : Str),
        List.count c (get_language_codes rows)
          = rows.countP (fun r => rowCode r == some c)) := by
  constructor
  · intro r1 r2
    simp [get_language_codes, List.filterMap_append]
  · intro rows c
    induction rows with
    | nil => rfl
    | cons r rs ih =>
      simp only [get_language_codes] at ih ⊢
      rw [List.filterMap_cons, List.countP_cons]
      cases hr : rowCode r with
      | none => simp [hr, ih]
      | some x =>
        simp only [hr]
        rw [List.count_cons, ih,
          show ((some x == some c)) = (x == c) from rfl]

/-- Claim C6 fails on the code: the check tests only that `'%'` occurs
and that `'s'` or `'d'` occurs, with no ordering — the message `"s%"`,
where the `'s'` precedes the only `'%'`, is flagged although the claim
says it must not be. -/
theorem c6_counterexample :
    flagged ['s', '%'] = true ∧ percentThenSD ['s', '%'] = false := by decide

/-- Claim C6 (amended): the post-pass flags a message iff it contains a
`'%'` and contains an `'s'` or `'d'` anywhere, in either order; this
flags every message in which some `'%'` is later followed by `'s'`/`'d'`,
and possibly more. -/
theorem c6_flag_criterion (msg : Str) (h : percentThenSD msg = true) :
    flagged msg = true := by
  have contains_head : ∀ (c : Char) (rest : Str), (c :: rest).contains c = true := by
    intro c rest
    rw [List.contains_cons]
    simp
  have contains_tail : ∀ {a : Char} (c : Char) {rest : Str},
      rest.contains a = true → (c :: rest).contains a = true := by
    intro a c rest h1
    rw [List.contains_cons, h1, Bool.or_true]
  induction msg with
  | nil => simp [percentThenSD] at h
  | cons c rest ih =>
    simp only [percentThenSD, Bool.or_eq_true, Bool.and_eq_true, beq_iff_eq] at h
    rcases h with ⟨hc, hsd⟩ | h
    · subst hc
      simp only [flagged, Bool.and_eq_true, Bool.or_eq_true]
      refine ⟨contains_head '%' rest, ?_⟩
      rcases hsd with h1 | h1
      · exact Or.inl (contains_tail '%' h1)
      · exact Or.inr (contains_tail '%' h1)
    · have hf := ih h
      simp only [flagged, Bool.and_eq_true, Bool.or_eq_true] at hf ⊢
      obtain ⟨hp, hsd⟩ := hf
      refine ⟨contains_tail c hp, ?_⟩
      rcases hsd with h1 | h1
      · exact Or.inl (contains_tail c h1)
      · exact Or.inr (contains_tail c h1)

/-- Witness for C6 (amended) at the message `"%s"`. -/
theorem c6_witness :
    percentThenSD ("%s".toList) = true ∧ flagged ("%s".toList) = true :=
  ⟨by decide, c6_flag_criterion ("%s".toList) (by decide)⟩

theorem download_file_fst_congr (env : Env) (fs fs' : FS) (f : FileInfo) :
    (download_file env fs f).1 = (download_file env fs' f).1 := by
  unfold download_file
  cases raise_for_status (env.http f.download_url) with
  | none => rfl
  | some text =>
    dsimp only
    cases env.parseJson text with
    | none => rfl
    | some data =>
      dsimp only
      cases env.writeOk f.name <;> simp

theorem download_countP_congr (env : Env) (l : List FileInfo) (fs1 fs2 : FS) :
    l.countP (fun f => (download_file env fs1 f).1)
      = l.countP (fun f => (download_file env fs2 f).1) := by
  induction l with
  | nil => rfl
  | cons a t ih =>
    rw [List.countP_cons, List.countP_cons, ih, download_file_fst_congr env fs1 fs2 a]

theorem download_all_count (env : Env) :
    ∀ (json_files : List FileInfo) (fs : FS),
      (download_all_files env fs json_files).1
        = json_files.countP (fun f => (download_file env fs f).1) := by
  intro json_files
  induction json_files with
  | nil => intro fs; rfl
  | cons f rest ih =>
    intro fs
    show (download_all_files env (download_file env fs f).2 rest).1
        + (if (download_file env fs f).1 then 1 else 0) = _
    rw [ih, List.countP_cons, download_countP_congr env rest _ fs]

/-- Claim C7: the batch never fails as a whole — every per-item failure is
absorbed into a `false` result, the call always returns the number of
descriptors whose download succeeded end-to-end, bounded by the batch
size, and an empty batch returns `0`. -/
theorem c7_batch_completes (env : Env) (fs : FS) :
    download_all_files env fs [] = (0, fs) ∧
    (∀ json_files : List FileInfo,
        (download_all_files env fs json_files).1
          = json_files.countP (fun f => (download_file env fs f).1) ∧
        (download_all_files env fs json_files).1 ≤ json_files.length) := by
  refine ⟨rfl, fun json_files => ⟨download_all_count env json_files fs, ?_⟩⟩
  rw [download_all_count env json_files fs]
  exact List.countP_le_length _

/-- Claim C8: when the fallback document `en_gb.json` is missing from the
cache, the processing step aborts with the cache error before producing
any output. -/
theorem c8_missing_fallback_aborts (rows : List (List Str)) (cache : FS)
    (h : List.lookup fallbackName cache = none) :
    process_sleep_messages rows cache = Except.error cacheErrorMsg := by
  unfold process_sleep_messages
  rw [h]

/-- Witness for C8: an empty cache has no fallback, and the run aborts. -/
theorem c8_witness :
    List.lookup fallbackName ([] : FS) = none ∧
    process_sleep_messages [] [] = Except.error cacheErrorMsg :=
  ⟨rfl, c8_missing_fallback_aborts [] [] rfl⟩

/-- Claim C9: the verification post-pass never mutates the output — on a
successful run the returned directory state is exactly what the write
phase produced, and the post-pass only contributes the report list. -/
theorem c9_postpass_reads_only (rows : List (List Str)) (cache : FS)
    (p : FS × List (Str × Str)) (h : process_sleep_messages rows cache = Except.ok p) :
    ∃ fb, List.lookup fallbackName cache = some fb ∧
      p.1 = write_phase cache (dictGet fb sleepKey defaultMsg) (get_language_codes rows) [] ∧
      p.2 = check_unmodified p.1 (get_language_codes rows) := by
  unfold process_sleep_messages at h
  cases hl : List.lookup fallbackName cache with
  | none => rw [hl] at h; exact absurd h (by simp)
  | some fb =>
    rw [hl] at h
    simp only [Except.ok.injEq] at h
    subst h
    exact ⟨fb, rfl, rfl, rfl⟩

/-- Witness for C9 on a one-file cache and an empty table. -/
theorem c9_witness :
    process_sleep_messages [] [(fallbackName, [])]
      = Except.ok (([] : FS), ([] : List (Str × Str))) ∧
    ∃ fb, List.lookup fallbackName [(fallbackName, ([] : Doc))] = some fb ∧
      (([] : FS), ([] : List (Str × Str))).1
        = write_phase [(fallbackName, [])] (dictGet fb sleepKey defaultMsg)
            (get_language_codes []) [] ∧
      (([] : FS), ([] : List (Str × Str))).2
        = check_unmodified (([] : FS), ([] : List (Str × Str))).1 (get_language_codes []) :=
  ⟨rfl, c9_postpass_reads_only [] [(fallbackName, [])] ([], []) rfl⟩

/-- Claim C10: per-item download touches the cache only after the body
parsed as JSON — if the request raised, the status was an error, or the
body is not valid JSON, the function returns `false` and the filesystem
is unchanged. -/
theorem c10_download_file_atomic (env : Env) (fs : FS) (f : FileInfo)
    (h : raise_for_status (env.http f.download_url) = none ∨
        ∃ body, raise_for_status (env.http f.download_url) = some body ∧
          env.parseJson body = none) :
    download_file env fs f = (false, fs) := by
  unfold download_file
  rcases h with h | ⟨body, h1, h2⟩
  · rw [h]
  · rw [h1]
    dsimp only
    rw [h2]

/-- Witness for C10: a raising network leaves the filesystem unchanged. -/
theorem c10_witness :
    raise_for_status ((⟨fun _ => HttpResp.exn, fun _ => none, fun _ => true⟩ : Env).http [])
      = none ∧
    download_file ⟨fun _ => HttpResp.exn, fun _ => none, fun _ => true⟩ [] ⟨[], []⟩
      = (false, []) :=
  ⟨rfl, c10_download_file_atomic _ _ _ (Or.inl rfl)⟩

end SleepRemover
